import Mathlib

set_option maxHeartbeats 1000000
set_option maxRecDepth 4000

/-!
Verification of the text-graph analyzer core (`main.py`): a weighted directed
graph built from adjacent token pairs, with bridge-word lookup, PageRank with
dangling-node correction, weighted shortest path and a random walk that stops
on dead ends and repeated edges.
-/

/-- A directed graph as kept by the application: `nodeList` is the node set in
insertion order (`list(G)`), `adj` associates ordered node pairs (edge keys)
with their integer `weight` attribute (`G[a][b]["weight"]`). -/
structure DiGraph where
  nodeList : List String
  adj : List ((String × String) × Nat)
deriving DecidableEq

namespace DiGraph

/-- The successor list `list(G.successors(u))`: targets of edges leaving `u`. -/
def successors (G : DiGraph) (u : String) : List String :=
  (G.adj.filter (fun e => decide (e.1.1 = u))).map (fun e => e.1.2)

/-- The predecessor list `list(G.predecessors(u))`: sources of edges into `u`. -/
def predecessors (G : DiGraph) (u : String) : List String :=
  (G.adj.filter (fun e => decide (e.1.2 = u))).map (fun e => e.1.1)

/-- Edge-existence test `G.has_edge(a, b)`. -/
def hasEdge (G : DiGraph) (a b : String) : Bool :=
  G.adj.any (fun e => decide (e.1 = (a, b)))

/-- The weight attribute `G[a][b]["weight"]` of the edge `a→b` (0 if absent). -/
def weight (G : DiGraph) (a b : String) : Nat :=
  match G.adj.find? (fun e => decide (e.1 = (a, b))) with
  | some e => e.2
  | none => 0

/-- Adding a node if absent, as `networkx` does for each endpoint of a new edge. -/
def addNode (G : DiGraph) (a : String) : DiGraph :=
  if a ∈ G.nodeList then G else { G with nodeList := G.nodeList ++ [a] }

/-- Modelled from the spec: `networkx.DiGraph.add_edge(a, b, weight=w)` is
library code; per the Graph Builder contract it implicitly creates either
endpoint node if absent and sets the weight attribute of the unique edge
`a→b`, never creating a parallel edge. -/
def setEdge (G : DiGraph) (a b : String) (w : Nat) : DiGraph :=
  if G.hasEdge a b then
    { nodeList := ((G.addNode a).addNode b).nodeList
      adj := G.adj.map (fun e => if e.1 = (a, b) then (e.1, w) else e) }
  else
    { nodeList := ((G.addNode a).addNode b).nodeList
      adj := G.adj ++ [((a, b), w)] }

/-- One `self.G.add_edge(a, b, weight=self.G[a][b]["weight"] + 1 if
self.G.has_edge(a, b) else 1)` call from `load_file`. -/
def incEdge (G : DiGraph) (a b : String) : DiGraph :=
  G.setEdge a b (if G.hasEdge a b then G.weight a b + 1 else 1)

/-- The empty graph (`self.G.clear()`). -/
def empty : DiGraph := ⟨[], []⟩

/-- The keys of the adjacency list are distinct: no parallel edges. -/
def KeysNodup (G : DiGraph) : Prop := (G.adj.map (fun e => e.1)).Nodup

end DiGraph

/-- One step of the graph-building loop of `TextGraphApp.load_file`: the body
`if a and b: self.G.add_edge(...)` for one adjacent pair. -/
def buildStep (G : DiGraph) (ab : String × String) : DiGraph :=
  if ab.1 ≠ "" ∧ ab.2 ≠ "" then G.incEdge ab.1 ab.2 else G

/-- The graph-building loop of `TextGraphApp.load_file`: starting from a
cleared graph, fold over `zip(words, words[1:])`, incrementing the edge
`a→b` whenever both tokens are non-empty. -/
def load_graph (words : List String) : DiGraph :=
  (words.zip words.tail).foldl buildStep DiGraph.empty

/-- The function `bridge_words(G, w1, w2)` of `main.py`: empty when either
word is missing from the graph, else the successors `mid` of `w1` such that
the edge `mid→w2` exists. -/
def bridge_words (G : DiGraph) (w1 w2 : String) : List String :=
  if ¬ w1 ∈ G.nodeList ∨ ¬ w2 ∈ G.nodeList then []
  else (G.successors w1).filter (fun mid => G.hasEdge mid w2)

namespace DiGraph

theorem mem_successors {G : DiGraph} {u v : String} :
    v ∈ G.successors u ↔ G.hasEdge u v = true := by
  simp only [successors, hasEdge, List.mem_map, List.mem_filter, List.any_eq_true,
    decide_eq_true_eq]
  constructor
  · rintro ⟨⟨⟨s, t⟩, w⟩, ⟨he, h1⟩, h2⟩
    simp only at h1 h2
    subst h1; subst h2
    exact ⟨_, he, rfl⟩
  · rintro ⟨⟨⟨s, t⟩, w⟩, he, h1⟩
    simp only [Prod.mk.injEq] at h1
    obtain ⟨h1, h2⟩ := h1
    subst h1; subst h2
    exact ⟨_, ⟨he, rfl⟩, rfl⟩

theorem adj_addNode (G : DiGraph) (a : String) : (G.addNode a).adj = G.adj := by
  unfold addNode; split <;> rfl

theorem hasEdge_iff {G : DiGraph} {a b : String} :
    G.hasEdge a b = true ↔ ∃ e ∈ G.adj, e.1 = (a, b) := by
  simp [hasEdge]

theorem weight_of_not_hasEdge {G : DiGraph} {a b : String}
    (h : ¬ G.hasEdge a b = true) : G.weight a b = 0 := by
  have hn : G.adj.find? (fun e => decide (e.1 = (a, b))) = none := by
    rw [List.find?_eq_none]
    intro x hx hp
    exact h (hasEdge_iff.2 ⟨x, hx, by simpa using hp⟩)
  simp [weight, hn]

theorem setEdge_key_preserved (a b : String) (w : Nat)
    (e : (String × String) × Nat) :
    ((if e.1 = (a, b) then (e.1, w) else e) : (String × String) × Nat).1 = e.1 := by
  split <;> rfl

theorem adj_setEdge_pos {G : DiGraph} {a b : String} {w : Nat}
    (h : G.hasEdge a b = true) :
    (G.setEdge a b w).adj
      = G.adj.map (fun e => if e.1 = (a, b) then (e.1, w) else e) := by
  unfold setEdge; rw [if_pos h]

theorem adj_setEdge_neg {G : DiGraph} {a b : String} {w : Nat}
    (h : ¬ G.hasEdge a b = true) :
    (G.setEdge a b w).adj = G.adj ++ [((a, b), w)] := by
  unfold setEdge; rw [if_neg h]

theorem weight_setEdge (G : DiGraph) (a b x y : String) (w : Nat) :
    (G.setEdge a b w).weight x y = if (x, y) = (a, b) then w else G.weight x y := by
  by_cases h : G.hasEdge a b = true
  · simp only [weight, adj_setEdge_pos h, List.find?_map]
    have hcomp : ((fun e : (String × String) × Nat => decide (e.1 = (x, y))) ∘
        (fun e : (String × String) × Nat => if e.1 = (a, b) then (e.1, w) else e)) =
        (fun e : (String × String) × Nat => decide (e.1 = (x, y))) := by
      funext e
      simp only [Function.comp_apply, setEdge_key_preserved]
    rw [hcomp]
    by_cases hxy : (x, y) = (a, b)
    · rw [if_pos hxy]
      obtain ⟨e₀, he₀, hkey⟩ := hasEdge_iff.1 h
      have hsome : (G.adj.find? (fun e => decide (e.1 = (x, y)))).isSome := by
        rw [List.find?_isSome]
        exact ⟨e₀, he₀, by simp [hkey, hxy]⟩
      obtain ⟨e₁, he₁⟩ := Option.isSome_iff_exists.1 hsome
      have hk₁ : e₁.1 = (x, y) := by simpa using List.find?_some he₁
      rw [he₁]
      simp [hk₁, hxy]
    · rw [if_neg hxy]
      cases hf : G.adj.find? (fun e => decide (e.1 = (x, y))) with
      | none => simp
      | some e₁ =>
        have hk₁ : e₁.1 = (x, y) := by simpa using List.find?_some hf
        have hne2 : ¬ e₁.1 = (a, b) := by rw [hk₁]; exact hxy
        simp [hne2]
  · simp only [weight, adj_setEdge_neg h, List.find?_append]
    by_cases hxy : (x, y) = (a, b)
    · rw [if_pos hxy]
      have hn : G.adj.find? (fun e => decide (e.1 = (x, y))) = none := by
        rw [List.find?_eq_none]
        intro z hz hp
        exact h (hasEdge_iff.2 ⟨z, hz, by simpa [hxy] using hp⟩)
      rw [hn]
      simp [hxy]
    · rw [if_neg hxy]
      have hs : List.find? (fun e : (String × String) × Nat => decide (e.1 = (x, y)))
          [((a, b), w)] = none := by
        rw [List.find?_eq_none]
        intro z hz hp
        simp only [List.mem_singleton] at hz
        subst hz
        simp only [decide_eq_true_eq] at hp
        exact hxy hp.symm
      rw [hs]
      cases hf : G.adj.find? (fun e => decide (e.1 = (x, y))) <;> simp

theorem weight_incEdge (G : DiGraph) (a b x y : String) :
    (G.incEdge a b).weight x y
      = G.weight x y + (if (x, y) = (a, b) then 1 else 0) := by
  unfold incEdge
  rw [weight_setEdge]
  by_cases hxy : (x, y) = (a, b)
  · rw [if_pos hxy, if_pos hxy]
    have hx : x = a := congrArg Prod.fst hxy
    have hy : y = b := congrArg Prod.snd hxy
    subst hx; subst hy
    by_cases h : G.hasEdge x y = true
    · rw [if_pos h]
    · rw [if_neg h, weight_of_not_hasEdge h]
  · rw [if_neg hxy, if_neg hxy]
    omega

theorem hasEdge_iff_mem_keys {G : DiGraph} {a b : String} :
    G.hasEdge a b = true ↔ (a, b) ∈ G.adj.map (fun e => e.1) := by
  rw [hasEdge_iff]
  simp only [List.mem_map]

theorem keys_setEdge_pos {G : DiGraph} {a b : String} {w : Nat}
    (h : G.hasEdge a b = true) :
    (G.setEdge a b w).adj.map (fun e => e.1) = G.adj.map (fun e => e.1) := by
  rw [adj_setEdge_pos h, List.map_map]
  exact List.map_congr_left (fun e _ => setEdge_key_preserved a b w e)

theorem keys_setEdge_neg {G : DiGraph} {a b : String} {w : Nat}
    (h : ¬ G.hasEdge a b = true) :
    (G.setEdge a b w).adj.map (fun e => e.1)
      = G.adj.map (fun e => e.1) ++ [(a, b)] := by
  rw [adj_setEdge_neg h, List.map_append]
  rfl

theorem keysNodup_setEdge {G : DiGraph} (a b : String) (w : Nat)
    (h : G.KeysNodup) : (G.setEdge a b w).KeysNodup := by
  unfold KeysNodup
  by_cases he : G.hasEdge a b = true
  · rw [keys_setEdge_pos he]; exact h
  · rw [keys_setEdge_neg he]
    have hnm : ¬ (a, b) ∈ G.adj.map (fun e => e.1) :=
      fun hm => he (hasEdge_iff_mem_keys.2 hm)
    rw [List.nodup_append]
    exact ⟨h, List.nodup_singleton _, by
      intro k hk hk1
      simp only [List.mem_singleton] at hk1
      subst hk1
      exact hnm hk⟩

theorem keysNodup_incEdge {G : DiGraph} (a b : String) (h : G.KeysNodup) :
    (G.incEdge a b).KeysNodup := keysNodup_setEdge a b _ h

theorem sum_map_weights_incEdge {G : DiGraph} (a b : String) (h : G.KeysNodup) :
    ((G.incEdge a b).adj.map (fun e => e.2)).sum
      = (G.adj.map (fun e => e.2)).sum + 1 := by
  by_cases he : G.hasEdge a b = true
  · obtain ⟨e₀, he₀, hk₀⟩ := hasEdge_iff.1 he
    obtain ⟨l₁, l₂, hadj⟩ := List.append_of_mem he₀
    have hmid : ((a, b) :: (l₁.map (fun e => e.1) ++ l₂.map (fun e => e.1))).Nodup := by
      have h2 := h
      unfold KeysNodup at h2
      rw [hadj, List.map_append, List.map_cons, hk₀] at h2
      exact List.nodup_middle.1 h2
    have hnm : ¬ (a, b) ∈ l₁.map (fun e => e.1) ++ l₂.map (fun e => e.1) :=
      (List.nodup_cons.1 hmid).1
    have hn₁ : ∀ e ∈ l₁, ¬ e.1 = (a, b) := by
      intro e hel hcon
      exact hnm (List.mem_append_left _ (List.mem_map.2 ⟨e, hel, hcon⟩))
    have hn₂ : ∀ e ∈ l₂, ¬ e.1 = (a, b) := by
      intro e hel hcon
      exact hnm (List.mem_append_right _ (List.mem_map.2 ⟨e, hel, hcon⟩))
    have hw : G.weight a b = e₀.2 := by
      unfold weight
      rw [hadj, List.find?_append]
      have h1 : l₁.find? (fun e => decide (e.1 = (a, b))) = none := by
        rw [List.find?_eq_none]
        intro z hz hp
        simp only [decide_eq_true_eq] at hp
        exact hn₁ z hz hp
      rw [h1, List.find?_cons_of_pos _ (by simp [hk₀])]
      rfl
    have hadj2 : (G.incEdge a b).adj = l₁ ++ ((a, b), e₀.2 + 1) :: l₂ := by
      unfold incEdge
      rw [if_pos he, adj_setEdge_pos he, hadj, hw]
      rw [List.map_append, List.map_cons]
      have hl₁ : l₁.map (fun e => if e.1 = (a, b) then (e.1, e₀.2 + 1) else e) = l₁ :=
        (List.map_congr_left (fun e hel => by simp [hn₁ e hel])).trans (List.map_id l₁)
      have hl₂ : l₂.map (fun e => if e.1 = (a, b) then (e.1, e₀.2 + 1) else e) = l₂ :=
        (List.map_congr_left (fun e hel => by simp [hn₂ e hel])).trans (List.map_id l₂)
      rw [hl₁, hl₂, if_pos hk₀, hk₀]
    rw [hadj2, hadj]
    simp only [List.map_append, List.map_cons, List.sum_append, List.sum_cons]
    omega
  · unfold incEdge
    rw [if_neg he, adj_setEdge_neg he]
    simp only [List.map_append, List.sum_append, List.map_cons, List.sum_cons,
      List.map_nil, List.sum_nil]
    omega

theorem keysNodup_empty : DiGraph.empty.KeysNodup := by
  simp [KeysNodup, empty]

end DiGraph

theorem keysNodup_buildStep {G : DiGraph} (ab : String × String)
    (h : G.KeysNodup) : (buildStep G ab).KeysNodup := by
  unfold buildStep
  split
  · exact DiGraph.keysNodup_incEdge _ _ h
  · exact h

theorem keysNodup_foldl (pairs : List (String × String)) (G : DiGraph)
    (h : G.KeysNodup) : (pairs.foldl buildStep G).KeysNodup := by
  induction pairs generalizing G with
  | nil => exact h
  | cons ab rest ih =>
    rw [List.foldl_cons]
    exact ih _ (keysNodup_buildStep ab h)

theorem weight_foldl (pairs : List (String × String)) (G : DiGraph)
    (hp : ∀ ab ∈ pairs, ab.1 ≠ "" ∧ ab.2 ≠ "") (x y : String) :
    (pairs.foldl buildStep G).weight x y = G.weight x y + pairs.count (x, y) := by
  induction pairs generalizing G with
  | nil => simp
  | cons ab rest ih =>
    have hab := hp ab (List.mem_cons_self ab rest)
    rw [List.foldl_cons, ih _ (fun c hc => hp c (List.mem_cons_of_mem _ hc))]
    unfold buildStep
    rw [if_pos hab, DiGraph.weight_incEdge, List.count_cons]
    by_cases hxy : ab = (x, y)
    · subst hxy
      simp only [beq_self_eq_true, if_true, Prod.mk.eta]
      omega
    · have hb : (ab == (x, y)) = false := beq_eq_false_iff_ne.2 hxy
      have hxy2 : ¬ (x, y) = (ab.1, ab.2) := by
        simpa [Prod.mk.eta] using Ne.symm hxy
      simp only [if_neg hxy2, hb, Bool.false_eq_true, if_false]
      omega

theorem sum_weights_foldl (pairs : List (String × String)) (G : DiGraph)
    (h : G.KeysNodup) (hp : ∀ ab ∈ pairs, ab.1 ≠ "" ∧ ab.2 ≠ "") :
    ((pairs.foldl buildStep G).adj.map (fun e => e.2)).sum
      = (G.adj.map (fun e => e.2)).sum + pairs.length := by
  induction pairs generalizing G with
  | nil => simp
  | cons ab rest ih =>
    have hab := hp ab (List.mem_cons_self ab rest)
    rw [List.foldl_cons,
      ih _ (keysNodup_buildStep ab h) (fun c hc => hp c (List.mem_cons_of_mem _ hc))]
    have hstep : buildStep G ab = G.incEdge ab.1 ab.2 := by
      unfold buildStep
      rw [if_pos hab]
    rw [hstep, DiGraph.sum_map_weights_incEdge ab.1 ab.2 h, List.length_cons]
    omega

/-- Example graph used to instantiate hypotheses of the general theorems. -/
def gEx : DiGraph :=
  ⟨["a", "b", "c"], [(("a", "b"), 1), (("b", "c"), 2)]⟩

/-- Claim C5: `bridge_words` returns the empty collection whenever either word
is absent from the node set, and otherwise contains exactly the nodes `m` with
edges `w1→m` and `m→w2`, with no special-casing of self-bridges. -/
theorem C5_bridge_words_spec (G : DiGraph) (w1 w2 : String) :
    ((¬ w1 ∈ G.nodeList ∨ ¬ w2 ∈ G.nodeList) → bridge_words G w1 w2 = []) ∧
    (w1 ∈ G.nodeList → w2 ∈ G.nodeList → ∀ m : String,
      m ∈ bridge_words G w1 w2 ↔
        (G.hasEdge w1 m = true ∧ G.hasEdge m w2 = true)) := by
  constructor
  · intro h
    simp [bridge_words, h]
  · intro h1 h2 m
    have hc : ¬ (¬ w1 ∈ G.nodeList ∨ ¬ w2 ∈ G.nodeList) := by
      push_neg
      exact ⟨h1, h2⟩
    simp [bridge_words, hc, List.mem_filter, DiGraph.mem_successors]

/-- Witness for C5 on a concrete graph: both membership hypotheses discharged
at `w1 = "a"`, `w2 = "c"`, the bridge word being `"b"`. -/
theorem C5_bridge_words_spec_wit :
    ("b" ∈ bridge_words gEx "a" "c" ↔
      (gEx.hasEdge "a" "b" = true ∧ gEx.hasEdge "b" "c" = true)) ∧
    bridge_words gEx "x" "c" = [] :=
  ⟨(C5_bridge_words_spec gEx "a" "c").2 (by decide) (by decide) "b",
   (C5_bridge_words_spec gEx "x" "c").1 (Or.inl (by decide))⟩

/-- Claim C10: building from a single token produces a graph with no nodes and
no edges; the lone token is not reported as a member of the node set. -/
theorem C10_single_token_empty_graph (t : String) :
    (load_graph [t]).nodeList = [] ∧ (load_graph [t]).adj = [] ∧
      ¬ t ∈ (load_graph [t]).nodeList := by
  simp [load_graph, DiGraph.empty]

theorem weight_empty (a b : String) : DiGraph.empty.weight a b = 0 := rfl

/-- Claim C6: building from a token sequence of length at least 2 with
non-empty tokens performs one edge increment per adjacent pair: each edge
weight equals the number of adjacent occurrences of that ordered pair, the
adjacency keys stay duplicate-free (no parallel edges), and the total weight
equals `len(tokens) - 1`. -/
theorem C6_build_graph_weights (tokens : List String) (h2 : 2 ≤ tokens.length)
    (hne : ∀ t ∈ tokens, t ≠ "") :
    (∀ a b : String,
      (load_graph tokens).weight a b = (tokens.zip tokens.tail).count (a, b)) ∧
    (load_graph tokens).KeysNodup ∧
    ((load_graph tokens).adj.map (fun e => e.2)).sum = tokens.length - 1 := by
  have hp : ∀ ab ∈ tokens.zip tokens.tail, ab.1 ≠ "" ∧ ab.2 ≠ "" := by
    rintro ⟨x, y⟩ hab
    have hm := List.of_mem_zip hab
    exact ⟨hne _ hm.1, hne _ (List.mem_of_mem_tail hm.2)⟩
  refine ⟨?_, ?_, ?_⟩
  · intro a b
    rw [load_graph, weight_foldl _ _ hp, weight_empty]
    omega
  · exact keysNodup_foldl _ _ DiGraph.keysNodup_empty
  · rw [load_graph, sum_weights_foldl _ _ DiGraph.keysNodup_empty hp]
    have hlen : (tokens.zip tokens.tail).length = tokens.length - 1 := by
      rw [List.length_zip, List.length_tail]
      omega
    simp [DiGraph.empty, hlen]

/-- Witness for C6 at the token list `["a", "b", "a", "b"]`: the edge `a→b`
gets weight 2, keys stay duplicate-free, and the weights sum to 3. -/
theorem C6_build_graph_weights_wit :
    (load_graph ["a", "b", "a", "b"]).weight "a" "b"
        = ((["a", "b", "a", "b"].zip ["a", "b", "a", "b"].tail).count ("a", "b")) ∧
    (load_graph ["a", "b", "a", "b"]).KeysNodup ∧
    ((load_graph ["a", "b", "a", "b"]).adj.map (fun e => e.2)).sum = 3 := by
  obtain ⟨hw, hk, hs⟩ := C6_build_graph_weights ["a", "b", "a", "b"]
    (by decide) (by decide)
  exact ⟨hw "a" "b", hk, hs⟩

namespace DiGraph

/-- The per-iteration dangling mass
`dangling = sum(prev[u] for u in nodes if len(succ[u]) == 0)` computed from
the previous rank vector. -/
def danglingSum (G : DiGraph) (prev : String → ℚ) : ℚ :=
  ((G.nodeList.filter (fun v => decide (G.successors v = []))).map prev).sum

/-- The value the inner loop assigns to node `u`:
`pr[u] = (1 - d) / N + d * (dangling / N + sum(prev[v] / len(succ[v]) for v in
G.predecessors(u)))`, reading only the previous vector `prev`. -/
def prValue (G : DiGraph) (d : ℚ) (prev : String → ℚ) (u : String) : ℚ :=
  (1 - d) / (G.nodeList.length : ℚ)
    + d * (G.danglingSum prev / (G.nodeList.length : ℚ)
        + ((G.predecessors u).map
            (fun v => prev v / ((G.successors v).length : ℚ))).sum)

/-- The inner loop `for u in nodes: pr[u] = ...` of one PageRank iteration:
the rank dict `pr` is updated in place node by node, while every read refers
to the copied previous vector `prev`. -/
def prSweep (G : DiGraph) (d : ℚ) (prev : String → ℚ) :
    (String → ℚ) → List String → String → ℚ
  | pr, [] => pr
  | pr, u :: rest =>
      prSweep G d prev
        (Function.update pr u
          ((1 - d) / (G.nodeList.length : ℚ)
            + d * (G.danglingSum prev / (G.nodeList.length : ℚ)
              + ((G.predecessors u).map
                  (fun v => prev v / ((G.successors v).length : ℚ))).sum)))
        rest

/-- The iteration loop of `pagerank_with_dangling`: up to `maxIter` sweeps,
returning early when the total absolute change drops below `tol`. -/
def prLoop (G : DiGraph) (d tol : ℚ) : Nat → (String → ℚ) → (String → ℚ)
  | 0, pr => pr
  | k + 1, pr =>
      let pr2 := prSweep G d pr pr G.nodeList
      if (G.nodeList.map (fun u => |pr2 u - pr u|)).sum < tol then pr2
      else prLoop G d tol k pr2

/-- `pagerank_with_dangling(G, d, tol, max_iter)`: empty result on the empty
graph, else power iteration started from the uniform vector `1/N`. -/
def pagerank_with_dangling (G : DiGraph) (d tol : ℚ) (maxIter : Nat) :
    String → ℚ :=
  if G.nodeList.length = 0 then fun _ => 0
  else prLoop G d tol maxIter (fun _ => 1 / (G.nodeList.length : ℚ))

/-- Every edge endpoint is registered in the node list (true of every graph
the application builds, since nodes are only created as edge endpoints). -/
def EndpointsInNodes (G : DiGraph) : Prop :=
  ∀ e ∈ G.adj, e.1.1 ∈ G.nodeList ∧ e.1.2 ∈ G.nodeList

instance (G : DiGraph) : Decidable G.EndpointsInNodes :=
  inferInstanceAs (Decidable (∀ e ∈ G.adj, e.1.1 ∈ G.nodeList ∧ e.1.2 ∈ G.nodeList))

theorem prSweep_not_mem (G : DiGraph) (d : ℚ) (prev pr : String → ℚ)
    (l : List String) (u : String) (hu : ¬ u ∈ l) :
    prSweep G d prev pr l u = pr u := by
  induction l generalizing pr with
  | nil => rfl
  | cons v rest ih =>
    have hv : ¬ u = v := fun h => hu (h ▸ List.mem_cons_self v rest)
    have hr : ¬ u ∈ rest := fun h => hu (List.mem_cons_of_mem _ h)
    rw [prSweep, ih _ hr, Function.update_noteq hv]

theorem prSweep_mem (G : DiGraph) (d : ℚ) (prev pr : String → ℚ)
    (l : List String) (u : String) (hnd : l.Nodup) (hu : u ∈ l) :
    prSweep G d prev pr l u = G.prValue d prev u := by
  induction l generalizing pr with
  | nil => cases hu
  | cons v rest ih =>
    obtain ⟨hv, hndr⟩ := List.nodup_cons.1 hnd
    rcases List.mem_cons.1 hu with h | h
    · subst h
      rw [prSweep, prSweep_not_mem _ _ _ _ _ _ hv, Function.update_same]
      rfl
    · rw [prSweep]
      exact ih _ hndr h

end DiGraph

theorem sum_map_if_eq {β : Type} [DecidableEq β] (keys : List β) (b : β) (c : ℚ)
    (hnd : keys.Nodup) (hb : b ∈ keys) :
    (keys.map (fun u => if b = u then c else 0)).sum = c := by
  induction keys with
  | nil => cases hb
  | cons k rest ih =>
    obtain ⟨hk, hndr⟩ := List.nodup_cons.1 hnd
    rw [List.map_cons, List.sum_cons]
    rcases List.mem_cons.1 hb with h | h
    · subst h
      rw [if_pos rfl]
      have hz : (rest.map (fun u => if b = u then c else 0)).sum = 0 := by
        apply List.sum_eq_zero
        intro x hx
        obtain ⟨v, hv, hvx⟩ := List.mem_map.1 hx
        have : ¬ b = v := fun hbv => hk (hbv ▸ hv)
        rw [if_neg this] at hvx
        exact hvx.symm
      rw [hz]
      ring
    · have : ¬ b = k := fun hbk => (hbk ▸ hk) h
      rw [if_neg this, ih hndr h]
      ring

theorem sum_fiber {α : Type} {β : Type} [DecidableEq β] (l : List α)
    (keys : List β) (key : α → β) (g : α → ℚ) (hnd : keys.Nodup)
    (hall : ∀ x ∈ l, key x ∈ keys) :
    (keys.map (fun u => ((l.filter (fun x => decide (key x = u))).map g).sum)).sum
      = (l.map g).sum := by
  induction l with
  | nil => simp
  | cons x rest ih =>
    have hx : key x ∈ keys := hall x (List.mem_cons_self x rest)
    have hrest : ∀ y ∈ rest, key y ∈ keys :=
      fun y hy => hall y (List.mem_cons_of_mem _ hy)
    have hsplit : ∀ u : β,
        ((List.filter (fun y => decide (key y = u)) (x :: rest)).map g).sum
          = (if key x = u then g x else 0)
            + ((rest.filter (fun y => decide (key y = u))).map g).sum := by
      intro u
      rw [List.filter_cons]
      by_cases hxu : key x = u
      · simp [hxu]
      · simp [hxu]
    have hmap : keys.map (fun u =>
          ((List.filter (fun y => decide (key y = u)) (x :: rest)).map g).sum)
        = keys.map (fun u => (if key x = u then g x else 0)
            + ((rest.filter (fun y => decide (key y = u))).map g).sum) :=
      List.map_congr_left (fun u _ => hsplit u)
    rw [hmap, List.sum_map_add, sum_map_if_eq keys (key x) (g x) hnd hx, ih hrest,
      List.map_cons, List.sum_cons]

theorem sum_map_filter_if {α : Type} (l : List α) (p : α → Bool) (g : α → ℚ) :
    ((l.filter p).map g).sum = (l.map (fun x => if p x then g x else 0)).sum := by
  induction l with
  | nil => rfl
  | cons x rest ih =>
    rw [List.filter_cons]
    by_cases hp : p x
    · simp only [hp, if_true, List.map_cons, List.sum_cons, ih]
    · simp only [hp, Bool.false_eq_true, if_false, List.map_cons, List.sum_cons, ih]
      rw [zero_add]

namespace DiGraph

theorem danglingSum_eq (G : DiGraph) (prev : String → ℚ) :
    G.danglingSum prev
      = (G.nodeList.map
          (fun v => if G.successors v = [] then prev v else 0)).sum := by
  rw [danglingSum, sum_map_filter_if]
  have : G.nodeList.map (fun v => if decide (G.successors v = []) then prev v else 0)
      = G.nodeList.map (fun v => if G.successors v = [] then prev v else 0) := by
    apply List.map_congr_left
    intro v _
    by_cases h : G.successors v = [] <;> simp [h]
  rw [this]

theorem predSum_eq (G : DiGraph) (prev : String → ℚ)
    (hnd : G.nodeList.Nodup) (hep : G.EndpointsInNodes) :
    (G.nodeList.map (fun u => ((G.predecessors u).map
        (fun v => prev v / ((G.successors v).length : ℚ))).sum)).sum
      = (G.nodeList.map
          (fun v => if G.successors v = [] then 0 else prev v)).sum := by
  have h1 : ∀ u : String,
      ((G.predecessors u).map (fun v => prev v / ((G.successors v).length : ℚ))).sum
        = ((G.adj.filter (fun e => decide (e.1.2 = u))).map
            (fun e => prev e.1.1 / ((G.successors e.1.1).length : ℚ))).sum := by
    intro u
    rw [predecessors, List.map_map]
    rfl
  have hA : (G.nodeList.map (fun u => ((G.predecessors u).map
        (fun v => prev v / ((G.successors v).length : ℚ))).sum)).sum
      = (G.adj.map (fun e => prev e.1.1 / ((G.successors e.1.1).length : ℚ))).sum := by
    have hm : G.nodeList.map (fun u => ((G.predecessors u).map
          (fun v => prev v / ((G.successors v).length : ℚ))).sum)
        = G.nodeList.map (fun u => ((G.adj.filter (fun e => decide (e.1.2 = u))).map
            (fun e => prev e.1.1 / ((G.successors e.1.1).length : ℚ))).sum) :=
      List.map_congr_left (fun u _ => h1 u)
    rw [hm]
    exact sum_fiber G.adj G.nodeList (fun e => e.1.2)
      (fun e => prev e.1.1 / ((G.successors e.1.1).length : ℚ)) hnd
      (fun e he => (hep e he).2)
  have hB : (G.adj.map (fun e => prev e.1.1 / ((G.successors e.1.1).length : ℚ))).sum
      = (G.nodeList.map (fun v => ((G.adj.filter (fun e => decide (e.1.1 = v))).map
          (fun e => prev e.1.1 / ((G.successors e.1.1).length : ℚ))).sum)).sum :=
    (sum_fiber G.adj G.nodeList (fun e => e.1.1)
      (fun e => prev e.1.1 / ((G.successors e.1.1).length : ℚ)) hnd
      (fun e he => (hep e he).1)).symm
  have hC : ∀ v ∈ G.nodeList,
      ((G.adj.filter (fun e => decide (e.1.1 = v))).map
          (fun e => prev e.1.1 / ((G.successors e.1.1).length : ℚ))).sum
        = if G.successors v = [] then 0 else prev v := by
    intro v _
    have hconst : (G.adj.filter (fun e => decide (e.1.1 = v))).map
          (fun e => prev e.1.1 / ((G.successors e.1.1).length : ℚ))
        = (G.adj.filter (fun e => decide (e.1.1 = v))).map
          (fun _ => prev v / ((G.successors v).length : ℚ)) := by
      apply List.map_congr_left
      intro e he
      have h2 := (List.mem_filter.1 he).2
      simp only [decide_eq_true_eq] at h2
      rw [h2]
    have hlen : (G.adj.filter (fun e => decide (e.1.1 = v))).length
        = (G.successors v).length := by
      rw [successors, List.length_map]
    by_cases hsv : G.successors v = []
    · rw [if_pos hsv, hconst, List.map_const']
      have hz : (G.adj.filter (fun e => decide (e.1.1 = v))).length = 0 := by
        rw [hlen, hsv]
        rfl
      rw [hz]
      simp
    · rw [if_neg hsv, hconst, List.map_const', List.sum_replicate, hlen,
        nsmul_eq_mul]
      have hne0 : ((G.successors v).length : ℚ) ≠ 0 := by
        rw [Nat.cast_ne_zero]
        intro h0
        exact hsv (List.length_eq_zero.1 h0)
      rw [mul_comm, div_mul_cancel₀ _ hne0]
  rw [hA, hB, List.map_congr_left hC]

theorem sum_prValue (G : DiGraph) (d : ℚ) (prev : String → ℚ)
    (hnd : G.nodeList.Nodup) (hep : G.EndpointsInNodes)
    (hne : G.nodeList ≠ [])
    (hsum : (G.nodeList.map prev).sum = 1) :
    (G.nodeList.map (G.prValue d prev)).sum = 1 := by
  have hN : ((G.nodeList.length : ℚ)) ≠ 0 := by
    rw [Nat.cast_ne_zero]
    intro h0
    exact hne (List.length_eq_zero.1 h0)
  have hstep : G.nodeList.map (G.prValue d prev)
      = G.nodeList.map (fun u =>
          ((1 - d) / (G.nodeList.length : ℚ)
            + d * (G.danglingSum prev / (G.nodeList.length : ℚ)))
          + d * ((G.predecessors u).map
              (fun v => prev v / ((G.successors v).length : ℚ))).sum) := by
    apply List.map_congr_left
    intro u _
    rw [prValue]
    ring
  rw [hstep, List.sum_map_add, List.map_const', List.sum_replicate, nsmul_eq_mul,
    List.sum_map_mul_left, predSum_eq G prev hnd hep]
  have hDP : G.danglingSum prev
      + (G.nodeList.map (fun v => if G.successors v = [] then 0 else prev v)).sum
        = 1 := by
    have hpt : G.nodeList.map (fun v =>
          (if G.successors v = [] then prev v else 0)
            + (if G.successors v = [] then 0 else prev v))
        = G.nodeList.map prev := by
      apply List.map_congr_left
      intro v _
      by_cases h : G.successors v = [] <;> simp [h]
    rw [danglingSum_eq, ← List.sum_map_add, hpt, hsum]
  have hexp : (G.nodeList.length : ℚ)
      * ((1 - d) / (G.nodeList.length : ℚ)
          + d * (G.danglingSum prev / (G.nodeList.length : ℚ)))
      = (1 - d) + d * G.danglingSum prev := by
    field_simp
  rw [hexp]
  linear_combination d * hDP

theorem prValue_nonneg (G : DiGraph) (d : ℚ) (prev : String → ℚ)
    (hd0 : 0 ≤ d) (hd1 : d ≤ 1) (hep : G.EndpointsInNodes)
    (hprev : ∀ v ∈ G.nodeList, 0 ≤ prev v) (u : String) :
    0 ≤ G.prValue d prev u := by
  rw [prValue]
  have hN : (0:ℚ) ≤ (G.nodeList.length : ℚ) := Nat.cast_nonneg _
  have hD : 0 ≤ G.danglingSum prev := by
    apply List.sum_nonneg
    intro x hx
    obtain ⟨v, hv, hvx⟩ := List.mem_map.1 hx
    exact hvx ▸ hprev v (List.mem_filter.1 hv).1
  have hP : 0 ≤ ((G.predecessors u).map
      (fun v => prev v / ((G.successors v).length : ℚ))).sum := by
    apply List.sum_nonneg
    intro x hx
    obtain ⟨v, hv, hvx⟩ := List.mem_map.1 hx
    have hvn : v ∈ G.nodeList := by
      rw [predecessors] at hv
      obtain ⟨e, he, hev⟩ := List.mem_map.1 hv
      exact hev ▸ (hep e (List.mem_filter.1 he).1).1
    exact hvx ▸ div_nonneg (hprev v hvn) (Nat.cast_nonneg _)
  have h1 : (0:ℚ) ≤ (1 - d) / (G.nodeList.length : ℚ) :=
    div_nonneg (by linarith) hN
  exact add_nonneg h1 (mul_nonneg hd0 (add_nonneg (div_nonneg hD hN) hP))

theorem prLoop_inv (G : DiGraph) (d tol : ℚ) (k : Nat) (pr : String → ℚ)
    (hnd : G.nodeList.Nodup) (hep : G.EndpointsInNodes) (hne : G.nodeList ≠ [])
    (hd0 : 0 ≤ d) (hd1 : d ≤ 1)
    (h0 : ∀ u ∈ G.nodeList, 0 ≤ pr u) (h1 : (G.nodeList.map pr).sum = 1) :
    (∀ u ∈ G.nodeList, 0 ≤ G.prLoop d tol k pr u)
      ∧ (G.nodeList.map (G.prLoop d tol k pr)).sum = 1 := by
  induction k generalizing pr with
  | zero => exact ⟨h0, h1⟩
  | succ k ih =>
    have hstep : G.prLoop d tol (k + 1) pr
        = if (G.nodeList.map
              (fun u => |G.prSweep d pr pr G.nodeList u - pr u|)).sum < tol
          then G.prSweep d pr pr G.nodeList
          else G.prLoop d tol k (G.prSweep d pr pr G.nodeList) := rfl
    have hmem : ∀ u ∈ G.nodeList,
        G.prSweep d pr pr G.nodeList u = G.prValue d pr u :=
      fun u hu => G.prSweep_mem d pr pr G.nodeList u hnd hu
    have h0' : ∀ u ∈ G.nodeList, 0 ≤ G.prSweep d pr pr G.nodeList u := by
      intro u hu
      rw [hmem u hu]
      exact prValue_nonneg G d pr hd0 hd1 hep h0 u
    have h1' : (G.nodeList.map (G.prSweep d pr pr G.nodeList)).sum = 1 := by
      have hcg : G.nodeList.map (G.prSweep d pr pr G.nodeList)
          = G.nodeList.map (G.prValue d pr) := List.map_congr_left hmem
      rw [hcg]
      exact sum_prValue G d pr hnd hep hne h1
    rw [hstep]
    by_cases hc : (G.nodeList.map
        (fun u => |G.prSweep d pr pr G.nodeList u - pr u|)).sum < tol
    · rw [if_pos hc]
      exact ⟨h0', h1'⟩
    · rw [if_neg hc]
      exact ih _ h0' h1'

theorem prLoop_uniform (G : DiGraph) (d tol : ℚ) (k : Nat) (pr : String → ℚ)
    (hadj : G.adj = []) (hnd : G.nodeList.Nodup) (hne : G.nodeList ≠ [])
    (h : ∀ u ∈ G.nodeList, pr u = 1 / (G.nodeList.length : ℚ)) :
    ∀ u ∈ G.nodeList, G.prLoop d tol k pr u = 1 / (G.nodeList.length : ℚ) := by
  induction k generalizing pr with
  | zero => exact h
  | succ k ih =>
    have hN : ((G.nodeList.length : ℚ)) ≠ 0 := by
      rw [Nat.cast_ne_zero]
      intro h0
      exact hne (List.length_eq_zero.1 h0)
    have hval : ∀ u ∈ G.nodeList,
        G.prValue d pr u = 1 / (G.nodeList.length : ℚ) := by
      intro u _
      rw [prValue]
      have hpred : G.predecessors u = [] := by
        rw [predecessors, hadj]
        rfl
      have hpr : G.nodeList.map pr
          = G.nodeList.map (fun _ => 1 / (G.nodeList.length : ℚ)) :=
        List.map_congr_left h
      have hdang : G.danglingSum pr = 1 := by
        rw [danglingSum]
        have hfil : G.nodeList.filter (fun v => decide (G.successors v = []))
            = G.nodeList := by
          apply List.filter_eq_self.2
          intro v _
          simp [successors, hadj]
        rw [hfil, hpr, List.map_const', List.sum_replicate, nsmul_eq_mul,
          mul_one_div, div_self hN]
      rw [hpred, hdang]
      simp only [List.map_nil, List.sum_nil, add_zero]
      rw [mul_one_div, div_add_div_same, sub_add_cancel]
    have hmem : ∀ u ∈ G.nodeList,
        G.prSweep d pr pr G.nodeList u = 1 / (G.nodeList.length : ℚ) :=
      fun u hu => (G.prSweep_mem d pr pr G.nodeList u hnd hu).trans (hval u hu)
    have hstep : G.prLoop d tol (k + 1) pr
        = if (G.nodeList.map
              (fun u => |G.prSweep d pr pr G.nodeList u - pr u|)).sum < tol
          then G.prSweep d pr pr G.nodeList
          else G.prLoop d tol k (G.prSweep d pr pr G.nodeList) := rfl
    rw [hstep]
    by_cases hc : (G.nodeList.map
        (fun u => |G.prSweep d pr pr G.nodeList u - pr u|)).sum < tol
    · rw [if_pos hc]
      exact hmem
    · rw [if_neg hc]
      exact ih _ hmem

end DiGraph

/-- Claim C1: for every non-empty well-formed graph and damping in [0, 1],
every rank returned by `pagerank_with_dangling` is non-negative and the ranks
over the node set sum to exactly 1 (exact rational arithmetic stands in for
the floating tolerance); moreover on an entirely dangling graph (no edges at
all) the result is the uniform distribution `1/N`. -/
theorem C1_pagerank_distribution (G : DiGraph) (d tol : ℚ) (k : Nat)
    (hnd : G.nodeList.Nodup) (hep : G.EndpointsInNodes) (hne : G.nodeList ≠ [])
    (hd0 : 0 ≤ d) (hd1 : d ≤ 1) :
    (∀ u ∈ G.nodeList, 0 ≤ G.pagerank_with_dangling d tol k u)
      ∧ (G.nodeList.map (G.pagerank_with_dangling d tol k)).sum = 1
      ∧ (G.adj = [] → ∀ u ∈ G.nodeList,
          G.pagerank_with_dangling d tol k u = 1 / (G.nodeList.length : ℚ)) := by
  have hlen : ¬ G.nodeList.length = 0 := fun h => hne (List.length_eq_zero.1 h)
  have hN : ((G.nodeList.length : ℚ)) ≠ 0 := by
    rw [Nat.cast_ne_zero]
    exact hlen
  have hinit0 : ∀ u ∈ G.nodeList,
      (0:ℚ) ≤ (fun _ : String => 1 / (G.nodeList.length : ℚ)) u :=
    fun u _ => div_nonneg zero_le_one (Nat.cast_nonneg _)
  have hinit1 :
      (G.nodeList.map (fun _ : String => 1 / (G.nodeList.length : ℚ))).sum = 1 := by
    rw [List.map_const', List.sum_replicate, nsmul_eq_mul, mul_one_div,
      div_self hN]
  unfold DiGraph.pagerank_with_dangling
  rw [if_neg hlen]
  obtain ⟨ha, hb⟩ := DiGraph.prLoop_inv G d tol k _ hnd hep hne hd0 hd1 hinit0 hinit1
  refine ⟨ha, hb, ?_⟩
  intro hadj
  exact DiGraph.prLoop_uniform G d tol k _ hadj hnd hne (fun u _ => rfl)

/-- Dangling example graph: three nodes, no edges at all. -/
def gDangling : DiGraph := ⟨["a", "b", "c"], []⟩

/-- Witness for C1 on the edgeless three-node graph with the default
parameters `d = 0.85`, `tol = 1e-10`, `max_iter = 100`. -/
theorem C1_pagerank_distribution_wit :
    (0:ℚ) ≤ gDangling.pagerank_with_dangling (85/100) (1/10^10) 100 "a"
      ∧ (gDangling.nodeList.map
          (gDangling.pagerank_with_dangling (85/100) (1/10^10) 100)).sum = 1
      ∧ gDangling.pagerank_with_dangling (85/100) (1/10^10) 100 "a"
          = 1 / (gDangling.nodeList.length : ℚ) := by
  obtain ⟨h0, h1, h2⟩ := C1_pagerank_distribution gDangling (85/100) (1/10^10) 100
    (by decide) (by decide) (by decide) (by norm_num) (by norm_num)
  exact ⟨h0 "a" (by decide), h1, h2 rfl "a" (by decide)⟩

/-- Claim C3: one PageRank sweep — the body of every iteration of
`pagerank_with_dangling` — although it updates the rank dict in place node by
node, assigns to every node `u` exactly
`(1 - d)/N + d * (dangling_mass/N + sum over predecessors v of prev[v] /
out_degree(v))`, where `dangling_mass` is the total prior rank of the
zero-out-degree nodes: every value read comes from the previous full vector
`prev`, never from the partially updated current one. -/
theorem C3_sweep_reads_previous_vector (G : DiGraph) (d : ℚ)
    (prev : String → ℚ) (hnd : G.nodeList.Nodup) (u : String)
    (hu : u ∈ G.nodeList) :
    G.prSweep d prev prev G.nodeList u
      = (1 - d) / (G.nodeList.length : ℚ)
        + d * ((((G.nodeList.filter
              (fun v => decide (G.successors v = []))).map prev).sum)
              / (G.nodeList.length : ℚ)
          + ((G.predecessors u).map
              (fun v => prev v / ((G.successors v).length : ℚ))).sum) :=
  G.prSweep_mem d prev prev G.nodeList u hnd hu

/-- Witness for C3 on a concrete two-edge graph, uniform previous vector and
node `"b"`. -/
theorem C3_sweep_reads_previous_vector_wit :
    gEx.prSweep (85/100) (fun _ => 1/3) (fun _ => 1/3) gEx.nodeList "b"
      = (1 - 85/100) / (gEx.nodeList.length : ℚ)
        + (85/100) * ((((gEx.nodeList.filter
              (fun v => decide (gEx.successors v = []))).map (fun _ => (1:ℚ)/3)).sum)
              / (gEx.nodeList.length : ℚ)
          + ((gEx.predecessors "b").map
              (fun v => (1:ℚ)/3 / ((gEx.successors v).length : ℚ))).sum) :=
  C3_sweep_reads_previous_vector gEx (85/100) (fun _ => 1/3) (by decide) "b"
    (by decide)

/-- The consecutive ordered pairs of a node sequence: `zip(path, path[1:])`. -/
def pathPairs : List String → List (String × String)
  | [] => []
  | [_] => []
  | a :: b :: rest => (a, b) :: pathPairs (b :: rest)

theorem pathPairs_concat (l : List String) (a x : String)
    (h : l.getLast? = some a) :
    pathPairs (l ++ [x]) = pathPairs l ++ [(a, x)] := by
  induction l with
  | nil => cases h
  | cons y rest ih =>
    cases rest with
    | nil =>
      have hy : y = a := by
        simpa using h
      subst hy
      rfl
    | cons z rest2 =>
      have h2 : (z :: rest2).getLast? = some a := by
        rw [← h]
        rfl
      have h3 := ih h2
      simp only [List.cons_append, pathPairs, List.append_eq] at h3 ⊢
      rw [h3]

theorem length_filter_mono_pred {α : Type} (l : List α) (p q : α → Bool)
    (h : ∀ x, p x = true → q x = true) :
    (l.filter p).length ≤ (l.filter q).length := by
  induction l with
  | nil => exact Nat.le_refl 0
  | cons x rest ih =>
    rw [List.filter_cons, List.filter_cons]
    by_cases hp : p x = true
    · rw [if_pos hp, if_pos (h x hp)]
      simpa using ih
    · rw [if_neg hp]
      by_cases hq : q x = true
      · rw [if_pos hq]
        exact Nat.le_succ_of_le ih
      · rw [if_neg hq]
        exact ih

theorem length_filter_lt (l : List (String × String)) (a : String × String)
    (es : List (String × String)) (hal : a ∈ l) (hae : ¬ a ∈ es) :
    (l.filter (fun k => !(decide (k ∈ a :: es)))).length
      < (l.filter (fun k => !(decide (k ∈ es)))).length := by
  induction l with
  | nil => cases hal
  | cons x rest ih =>
    rw [List.filter_cons, List.filter_cons]
    by_cases hxa : x = a
    · subst hxa
      have h1 : (!(decide (x ∈ x :: es))) = false := by simp
      have h2 : (!(decide (x ∈ es))) = true := by simp [hae]
      rw [h1, h2]
      simp only [Bool.false_eq_true, if_false, if_true, List.length_cons]
      have hle := length_filter_mono_pred rest
        (fun k => !(decide (k ∈ x :: es))) (fun k => !(decide (k ∈ es)))
        (by
          intro k hk
          rw [Bool.not_eq_true', decide_eq_false_iff_not] at hk
          rw [Bool.not_eq_true', decide_eq_false_iff_not]
          intro hke
          exact hk (List.mem_cons_of_mem _ hke))
      omega
    · by_cases hx : x ∈ es
      · have h1 : (!(decide (x ∈ a :: es))) = false := by
          simp [List.mem_cons, hx]
        have h2 : (!(decide (x ∈ es))) = false := by simp [hx]
        rw [h1, h2]
        simp only [Bool.false_eq_true, if_false]
        rcases List.mem_cons.1 hal with h | h
        · exact absurd h.symm hxa
        · exact ih h
      · have h1 : (!(decide (x ∈ a :: es))) = true := by
          simp [List.mem_cons, hxa, hx]
        have h2 : (!(decide (x ∈ es))) = true := by simp [hx]
        rw [h1, h2]
        simp only [if_true, List.length_cons]
        have hmem : a ∈ rest := by
          rcases List.mem_cons.1 hal with h | h
          · exact absurd h.symm hxa
          · exact h
        have := ih hmem
        omega

theorem mem_keys_of_mem_successors {G : DiGraph} {u v : String}
    (h : v ∈ G.successors u) : (u, v) ∈ G.adj.map (fun e => e.1) := by
  rw [DiGraph.successors] at h
  obtain ⟨e, he, hev⟩ := List.mem_map.1 h
  have h1 := (List.mem_filter.1 he).2
  simp only [decide_eq_true_eq] at h1
  refine List.mem_map.2 ⟨e, (List.mem_filter.1 he).1, ?_⟩
  rw [← h1, ← hev]

/-- The random successor at one walk step: `random.choice(succ)` modelled by
an arbitrary choice sequence, reduced modulo the successor count. -/
def chooseNext (G : DiGraph) (choice : Nat → Nat) (step : Nat) (node : String)
    (hs : ¬ (G.successors node).length = 0) : String :=
  (G.successors node).get ⟨choice step % (G.successors node).length,
    Nat.mod_lt _ (Nat.pos_of_ne_zero hs)⟩

/-- The loop body of `walk_thread` in `func_random_walk`: before each step the
stop event `halt` is polled; a node without successors ends the walk; else
`choice step` picks the random successor, a previously traversed ordered pair
ends the walk before being re-recorded, and otherwise the chosen node is
appended to the trace and the edge marked as traversed. -/
def walk_step (G : DiGraph) (choice : Nat → Nat) (halt : Nat → Bool)
    (step : Nat) (node : String) (visited : List String)
    (edges : List (String × String)) : List String :=
  if halt step then visited
  else
    if hs : (G.successors node).length = 0 then visited
    else
      if (node, chooseNext G choice step node hs) ∈ edges then visited
      else
        walk_step G choice halt (step + 1) (chooseNext G choice step node hs)
          (visited ++ [chooseNext G choice step node hs])
          ((node, chooseNext G choice step node hs) :: edges)
termination_by
  ((G.adj.map (fun e => e.1)).filter (fun k => !(decide (k ∈ edges)))).length
decreasing_by
  apply length_filter_lt
  · apply mem_keys_of_mem_successors
    exact List.get_mem _ _ _
  · assumption

/-- One full random walk of `walk_thread`: start node `start`, trace
initialised to `[start]`, no traversed edges. -/
def walk_thread (G : DiGraph) (choice : Nat → Nat) (halt : Nat → Bool)
    (start : String) : List String :=
  walk_step G choice halt 0 start [start] []


theorem walk_step_pairs (G : DiGraph) (choice : Nat → Nat) (halt : Nat → Bool)
    (step : Nat) (node : String) (visited : List String)
    (edges : List (String × String))
    (hlast : visited.getLast? = some node)
    (hsub : ∀ pr ∈ pathPairs visited, pr ∈ edges)
    (hnd : (pathPairs visited).Nodup) :
    (pathPairs (walk_step G choice halt step node visited edges)).Nodup := by
  revert hlast hsub hnd
  induction step, node, visited, edges using walk_step.induct G choice halt with
  | case1 step node visited edges hh =>
    intro hlast hsub hnd
    unfold walk_step
    rw [if_pos hh]
    exact hnd
  | case2 step node visited edges hh hs =>
    intro hlast hsub hnd
    unfold walk_step
    rw [if_neg hh, dif_pos hs]
    exact hnd
  | case3 step node visited edges hh hs hmem =>
    intro hlast hsub hnd
    unfold walk_step
    rw [if_neg hh, dif_neg hs, if_pos hmem]
    exact hnd
  | case4 step node visited edges hh hs hmem ih =>
    intro hlast hsub hnd
    unfold walk_step
    rw [if_neg hh, dif_neg hs, if_neg hmem]
    have hpp := pathPairs_concat visited node (chooseNext G choice step node hs) hlast
    apply ih
    · exact List.getLast?_concat _
    · intro pr hpr
      rw [hpp] at hpr
      rcases List.mem_append.1 hpr with h | h
      · exact List.mem_cons_of_mem _ (hsub pr h)
      · simp only [List.mem_singleton] at h
        subst h
        exact List.mem_cons_self _ _
    · rw [hpp, List.nodup_append]
      refine ⟨hnd, List.nodup_singleton _, ?_⟩
      intro pr hpr hpr1
      simp only [List.mem_singleton] at hpr1
      subst hpr1
      exact hmem (hsub _ hpr)

/-- Claim C4: the random-walk trace never records the same ordered node pair
twice, for any graph, any choice sequence and any stop-event timing; moreover
a start node with zero out-degree ends the walk with no step appended. -/
theorem C4_walk_no_repeated_edge (G : DiGraph) (choice : Nat → Nat)
    (halt : Nat → Bool) (start : String) :
    (pathPairs (walk_thread G choice halt start)).Nodup ∧
    (G.successors start = [] → walk_thread G choice halt start = [start]) := by
  constructor
  · exact walk_step_pairs G choice halt 0 start [start] [] rfl
      (fun pr hpr => absurd hpr (List.not_mem_nil pr)) List.nodup_nil
  · intro hs
    unfold walk_thread walk_step
    by_cases hh : halt 0 = true
    · rw [if_pos hh]
    · rw [if_neg hh, dif_pos (by rw [hs]; rfl)]

/-- Witness for C4: on the concrete graph `gEx` the node `"c"` has no
successors, so a walk from it is the single-node trace, whose pair list is
duplicate-free. -/
theorem C4_walk_no_repeated_edge_wit :
    walk_thread gEx (fun _ => 0) (fun _ => false) "c" = ["c"] ∧
    (pathPairs (walk_thread gEx (fun _ => 0) (fun _ => false) "c")).Nodup :=
  ⟨(C4_walk_no_repeated_edge gEx (fun _ => 0) (fun _ => false) "c").2 (by decide),
   (C4_walk_no_repeated_edge gEx (fun _ => 0) (fun _ => false) "c").1⟩

theorem walk_step_length (G : DiGraph) (choice : Nat → Nat) (halt : Nat → Bool)
    (step : Nat) (node : String) (visited : List String)
    (edges : List (String × String)) :
    (walk_step G choice halt step node visited edges).length
      ≤ visited.length
        + ((G.adj.map (fun e => e.1)).filter
            (fun k => !(decide (k ∈ edges)))).length := by
  induction step, node, visited, edges using walk_step.induct G choice halt with
  | case1 step node visited edges hh =>
    unfold walk_step
    rw [if_pos hh]
    omega
  | case2 step node visited edges hh hs =>
    unfold walk_step
    rw [if_neg hh, dif_pos hs]
    omega
  | case3 step node visited edges hh hs hmem =>
    unfold walk_step
    rw [if_neg hh, dif_neg hs, if_pos hmem]
    omega
  | case4 step node visited edges hh hs hmem ih =>
    unfold walk_step
    rw [if_neg hh, dif_neg hs, if_neg hmem]
    refine le_trans ih ?_
    have hdec := length_filter_lt (G.adj.map (fun e => e.1))
      (node, chooseNext G choice step node hs) edges
      (mem_keys_of_mem_successors (List.get_mem _ _ _)) hmem
    rw [List.length_append, List.length_singleton]
    omega

/-- Claim C9: the random-walk loop always terminates (the recursion is
well-founded on the unused-edge count) and the trace never exceeds `E + 1`
nodes for a graph with `E` edges, whatever the stop event does. -/
theorem C9_walk_terminates_bounded (G : DiGraph) (choice : Nat → Nat)
    (halt : Nat → Bool) (start : String) :
    (walk_thread G choice halt start).length ≤ G.adj.length + 1 := by
  have h := walk_step_length G choice halt 0 start [start] []
  have hfil : ((G.adj.map (fun e => e.1)).filter
      (fun k => !(decide (k ∈ ([] : List (String × String)))))).length
        = G.adj.length := by
    rw [List.filter_eq_self.2 (fun x _ => by simp), List.length_map]
  rw [hfil] at h
  unfold walk_thread
  rw [Nat.add_comm]
  exact h

/-- Boolean test that every consecutive pair of `p` is an edge of `G`. -/
def chainOk (G : DiGraph) (p : List String) : Bool :=
  (pathPairs p).all (fun pr => G.hasEdge pr.1 pr.2)

/-- Boolean test that `p` is a directed path from `w1` to `w2` in `G`:
non-empty, starting at `w1`, ending at `w2`, every consecutive pair an edge. -/
def isPath (G : DiGraph) (w1 w2 : String) (p : List String) : Bool :=
  (p.head? == some w1) && (p.getLast? == some w2) && chainOk G p

/-- The cost of a path: the sum of the traversed edge weights. -/
def pathCost (G : DiGraph) (p : List String) : Nat :=
  ((pathPairs p).map (fun pr => G.weight pr.1 pr.2)).sum

/-- All duplicate-free directed paths of `G` that start at `u`, avoid
`visited`, and have at most `fuel` nodes. -/
def simplePathsAux (G : DiGraph) : Nat → List String → String → List (List String)
  | 0, _, _ => []
  | fuel + 1, visited, u =>
    [u] :: ((G.successors u).filter
        (fun v => !(decide (v ∈ u :: visited)))).flatMap
      (fun v => (simplePathsAux G fuel (u :: visited) v).map (fun p => u :: p))

/-- Modelled from the spec: `nx.shortest_path(G, w1, w2, weight="weight")` is
library code; the spec requires a Dijkstra-class minimum total-weight directed
path, any one of them when several tie. Modelled as a minimum-cost element of
the duplicate-free directed paths from `w1` to `w2` (with non-negative weights
a minimum-cost path can always be taken duplicate-free), `none` when no path
exists (`nx.NetworkXNoPath`). -/
def calc_shortest_path (G : DiGraph) (w1 w2 : String) : Option (List String) :=
  ((simplePathsAux G G.nodeList.length [] w1).filter
      (fun p => p.getLast? == some w2)).argmin (pathCost G)

/-- Result of the shortest-path query as surfaced by the application. -/
inductive SPResult where
  | unknownNode : SPResult
  | noPath : SPResult
  | found : List String → Nat → SPResult
deriving DecidableEq

/-- `TextGraphApp.func_shortest_path`: warn when either word is missing from
the graph, report unreachable when the search raises no-path, else report the
path and the sum of weights over the set of its edges
(`set(zip(path, path[1:]))`). -/
def func_shortest_path (G : DiGraph) (w1 w2 : String) : SPResult :=
  if ¬ w1 ∈ G.nodeList ∨ ¬ w2 ∈ G.nodeList then SPResult.unknownNode
  else
    match calc_shortest_path G w1 w2 with
    | some path =>
        SPResult.found path
          (((pathPairs path).dedup.map (fun pr => G.weight pr.1 pr.2)).sum)
    | none => SPResult.noPath

theorem chainOk_cons_cons {G : DiGraph} {a b : String} {rest : List String} :
    chainOk G (a :: b :: rest)
      = (G.hasEdge a b && chainOk G (b :: rest)) := rfl

theorem isPath_iff {G : DiGraph} {w1 w2 : String} {p : List String} :
    isPath G w1 w2 p = true ↔
      p.head? = some w1 ∧ p.getLast? = some w2 ∧ chainOk G p = true := by
  simp [isPath, Bool.and_eq_true, and_assoc]

theorem chainOk_cons_of_head {G : DiGraph} {u v : String} {p : List String}
    (hh : p.head? = some v) (hc : chainOk G p = true)
    (he : G.hasEdge u v = true) : chainOk G (u :: p) = true := by
  cases p with
  | nil => cases hh
  | cons b rest =>
    have hb : b = v := by simpa using hh
    subst hb
    rw [chainOk_cons_cons, he, hc]
    rfl

theorem simplePathsAux_sound (G : DiGraph) (fuel : Nat) :
    ∀ (visited : List String) (u : String) (p : List String),
      ¬ u ∈ visited → p ∈ simplePathsAux G fuel visited u →
      p.head? = some u ∧ chainOk G p = true ∧ p.Nodup ∧
        ∀ x ∈ p, ¬ x ∈ visited := by
  induction fuel with
  | zero =>
    intro visited u p _ hp
    cases hp
  | succ fuel ih =>
    intro visited u p hu hp
    rw [simplePathsAux] at hp
    rcases List.mem_cons.1 hp with h | h
    · subst h
      refine ⟨rfl, rfl, List.nodup_singleton u, ?_⟩
      intro x hx
      rw [List.mem_singleton] at hx
      subst hx
      exact hu
    · obtain ⟨v, hv, hpv⟩ := List.mem_flatMap.1 h
      obtain ⟨p', hp', hpp⟩ := List.mem_map.1 hpv
      subst hpp
      obtain ⟨hvs, hvn⟩ := List.mem_filter.1 hv
      have hvnotin : ¬ v ∈ u :: visited := by
        rw [Bool.not_eq_true', decide_eq_false_iff_not] at hvn
        exact hvn
      obtain ⟨hh', hc', hnd', hvis'⟩ := ih (u :: visited) v p' hvnotin hp'
      have hnotu : ∀ x ∈ p', ¬ x = u := by
        intro x hx hxu
        exact hvis' x hx (hxu ▸ List.mem_cons_self u visited)
      refine ⟨rfl, ?_, ?_, ?_⟩
      · exact chainOk_cons_of_head hh' hc' (DiGraph.mem_successors.1 hvs)
      · refine List.nodup_cons.2 ⟨?_, hnd'⟩
        intro hmem
        exact hnotu u hmem rfl
      · intro x hx
        rcases List.mem_cons.1 hx with h2 | h2
        · subst h2
          exact hu
        · intro hxv
          exact hvis' x h2 (List.mem_cons_of_mem _ hxv)

theorem simplePathsAux_complete (G : DiGraph) (p : List String) :
    ∀ (fuel : Nat) (visited : List String) (u : String),
      p.head? = some u → chainOk G p = true → p.Nodup →
      (∀ x ∈ p, ¬ x ∈ visited) → p.length ≤ fuel →
      p ∈ simplePathsAux G fuel visited u := by
  induction p with
  | nil =>
    intro fuel visited u hh
    cases hh
  | cons a rest ih =>
    intro fuel visited u hh hc hnd hvis hlen
    have ha : a = u := by simpa using hh
    subst ha
    cases fuel with
    | zero =>
      exact absurd hlen (by simp)
    | succ fuel =>
      rw [simplePathsAux]
      cases rest with
      | nil => exact List.mem_cons_self _ _
      | cons v rest2 =>
        apply List.mem_cons_of_mem
        apply List.mem_flatMap.2
        have hedge : G.hasEdge a v = true := by
          rw [chainOk_cons_cons, Bool.and_eq_true] at hc
          exact hc.1
        have hchain2 : chainOk G (v :: rest2) = true := by
          rw [chainOk_cons_cons, Bool.and_eq_true] at hc
          exact hc.2
        have hanotin : ¬ a ∈ v :: rest2 := (List.nodup_cons.1 hnd).1
        refine ⟨v, ?_, ?_⟩
        · apply List.mem_filter.2
          refine ⟨DiGraph.mem_successors.2 hedge, ?_⟩
          rw [Bool.not_eq_true', decide_eq_false_iff_not]
          intro hv
          rcases List.mem_cons.1 hv with h2 | h2
          · exact hanotin (h2 ▸ List.mem_cons_self v rest2)
          · exact hvis v (List.mem_cons_of_mem _ (List.mem_cons_self v rest2)) h2
        · apply List.mem_map.2
          refine ⟨v :: rest2, ?_, rfl⟩
          apply ih fuel (a :: visited) v rfl hchain2 (List.nodup_cons.1 hnd).2
          · intro x hx
            intro hxm
            rcases List.mem_cons.1 hxm with h2 | h2
            · exact hanotin (h2 ▸ hx)
            · exact hvis x (List.mem_cons_of_mem _ hx) h2
          · have := hlen
            simp only [List.length_cons] at this ⊢
            omega

theorem exists_dup_split (l : List String) (h : ¬ l.Nodup) :
    ∃ (x : String) (l₁ l₂ l₃ : List String),
      l = l₁ ++ x :: l₂ ++ x :: l₃ := by
  induction l with
  | nil => exact absurd List.nodup_nil h
  | cons a t ih =>
    by_cases ha : a ∈ t
    · obtain ⟨s, r, hsr⟩ := List.append_of_mem ha
      exact ⟨a, [], s, r, by rw [hsr]; rfl⟩
    · have hnt : ¬ t.Nodup := fun hnd => h (List.nodup_cons.2 ⟨ha, hnd⟩)
      obtain ⟨x, l₁, l₂, l₃, hl⟩ := ih hnt
      exact ⟨x, a :: l₁, l₂, l₃, by rw [hl]; rfl⟩

theorem pathPairs_append (A : List String) (x : String) (B : List String) :
    pathPairs (A ++ x :: B) = pathPairs (A ++ [x]) ++ pathPairs (x :: B) := by
  induction A with
  | nil => rfl
  | cons a A ih =>
    cases A with
    | nil =>
      cases B with
      | nil => rfl
      | cons b B2 => rfl
    | cons a2 A2 =>
      simp only [List.cons_append, pathPairs, List.append_eq] at ih ⊢
      rw [ih]

theorem chainOk_append (G : DiGraph) (A : List String) (x : String)
    (B : List String) :
    chainOk G (A ++ x :: B)
      = (chainOk G (A ++ [x]) && chainOk G (x :: B)) := by
  rw [chainOk, pathPairs_append, List.all_append]
  rfl

theorem pathCost_append (G : DiGraph) (A : List String) (x : String)
    (B : List String) :
    pathCost G (A ++ x :: B)
      = pathCost G (A ++ [x]) + pathCost G (x :: B) := by
  rw [pathCost, pathPairs_append, List.map_append, List.sum_append]
  rfl

theorem head?_append_cons (A : List String) (x : String) (B C : List String) :
    (A ++ x :: B).head? = (A ++ x :: C).head? := by
  cases A <;> rfl

theorem splice_path (G : DiGraph) (w1 w2 x : String) (l₁ l₂ l₃ : List String)
    (hp : isPath G w1 w2 (l₁ ++ x :: l₂ ++ x :: l₃) = true) :
    isPath G w1 w2 (l₁ ++ x :: l₃) = true ∧
      pathCost G (l₁ ++ x :: l₃) ≤ pathCost G (l₁ ++ x :: l₂ ++ x :: l₃) := by
  obtain ⟨hh, hl, hc⟩ := isPath_iff.1 hp
  have hassoc : l₁ ++ x :: l₂ ++ x :: l₃ = l₁ ++ x :: (l₂ ++ x :: l₃) := by
    simp
  rw [hassoc] at hh hl hc
  have hchain := hc
  rw [chainOk_append G l₁ x (l₂ ++ x :: l₃), Bool.and_eq_true] at hchain
  have hchain2 := hchain.2
  have hxcons : (x :: (l₂ ++ x :: l₃)) = (x :: l₂) ++ x :: l₃ := by simp
  rw [hxcons, chainOk_append G (x :: l₂) x l₃, Bool.and_eq_true] at hchain2
  constructor
  · rw [isPath_iff]
    refine ⟨?_, ?_, ?_⟩
    · rw [← hh]
      exact head?_append_cons l₁ x l₃ (l₂ ++ x :: l₃)
    · rw [← hl, List.getLast?_append_cons, List.getLast?_append_cons]
      rw [hxcons, List.getLast?_append_cons]
    · rw [chainOk_append G l₁ x l₃, Bool.and_eq_true]
      exact ⟨hchain.1, hchain2.2⟩
  · rw [hassoc, pathCost_append G l₁ x l₃,
      pathCost_append G l₁ x (l₂ ++ x :: l₃), hxcons,
      pathCost_append G (x :: l₂) x l₃]
    omega

theorem exists_simple_path (G : DiGraph) (w1 w2 : String) (q : List String)
    (hq : isPath G w1 w2 q = true) :
    ∃ q', isPath G w1 w2 q' = true ∧ q'.Nodup ∧
      pathCost G q' ≤ pathCost G q := by
  by_cases hnd : q.Nodup
  · exact ⟨q, hq, hnd, Nat.le_refl _⟩
  · obtain ⟨x, l₁, l₂, l₃, hdec⟩ := exists_dup_split q hnd
    rw [hdec] at hq
    obtain ⟨hp', hc'⟩ := splice_path G w1 w2 x l₁ l₂ l₃ hq
    obtain ⟨q', h1, h2, h3⟩ := exists_simple_path G w1 w2 (l₁ ++ x :: l₃) hp'
    refine ⟨q', h1, h2, ?_⟩
    rw [hdec]
    exact Nat.le_trans h3 hc'
termination_by q.length
decreasing_by
  rw [hdec]
  simp only [List.length_append, List.length_cons]
  omega

theorem target_mem_of_hasEdge {G : DiGraph} (hep : G.EndpointsInNodes)
    {a b : String} (h : G.hasEdge a b = true) : b ∈ G.nodeList := by
  obtain ⟨e, he, hk⟩ := DiGraph.hasEdge_iff.1 h
  have h2 := (hep e he).2
  have h3 : e.1.2 = b := congrArg Prod.snd hk
  rw [h3] at h2
  exact h2

theorem path_mem_nodes (G : DiGraph) (hep : G.EndpointsInNodes) :
    ∀ (p : List String) (u : String), u ∈ G.nodeList → p.head? = some u →
      chainOk G p = true → ∀ x ∈ p, x ∈ G.nodeList := by
  intro p
  induction p with
  | nil =>
    intro u _ _ _ x hx
    cases hx
  | cons a rest ih =>
    intro u hu hh hc x hx
    have ha : a = u := by simpa using hh
    subst ha
    rcases List.mem_cons.1 hx with h2 | h2
    · subst h2
      exact hu
    · cases rest with
      | nil => cases h2
      | cons b rest2 =>
        rw [chainOk_cons_cons, Bool.and_eq_true] at hc
        exact ih b (target_mem_of_hasEdge hep hc.1) rfl hc.2 x h2

theorem mem_pathPairs_fst {p : List String} {pr : String × String}
    (h : pr ∈ pathPairs p) : pr.1 ∈ p := by
  induction p with
  | nil => cases h
  | cons a rest ih =>
    cases rest with
    | nil => cases h
    | cons b rest2 =>
      rcases List.mem_cons.1 h with h2 | h2
      · subst h2
        exact List.mem_cons_self _ _
      · exact List.mem_cons_of_mem _ (ih h2)

theorem pathPairs_nodup {p : List String} (h : p.Nodup) :
    (pathPairs p).Nodup := by
  induction p with
  | nil => exact List.nodup_nil
  | cons a rest ih =>
    cases rest with
    | nil => exact List.nodup_nil
    | cons b rest2 =>
      have ha : ¬ a ∈ b :: rest2 := (List.nodup_cons.1 h).1
      refine List.nodup_cons.2 ⟨?_, ih (List.nodup_cons.1 h).2⟩
      intro hmem
      exact ha (mem_pathPairs_fst hmem)

theorem mem_cands (G : DiGraph) (w1 w2 : String) (p : List String) :
    p ∈ (simplePathsAux G G.nodeList.length [] w1).filter
        (fun p => p.getLast? == some w2)
      ↔ p ∈ simplePathsAux G G.nodeList.length [] w1
          ∧ p.getLast? = some w2 := by
  rw [List.mem_filter]
  constructor
  · rintro ⟨h1, h2⟩
    exact ⟨h1, by simpa using h2⟩
  · rintro ⟨h1, h2⟩
    exact ⟨h1, by simpa using h2⟩

theorem cand_isPath (G : DiGraph) (w1 w2 : String) (p : List String)
    (hp : p ∈ (simplePathsAux G G.nodeList.length [] w1).filter
        (fun p => p.getLast? == some w2)) :
    isPath G w1 w2 p = true ∧ p.Nodup := by
  obtain ⟨h1, h2⟩ := (mem_cands G w1 w2 p).1 hp
  obtain ⟨hh, hc, hnd, _⟩ := simplePathsAux_sound G G.nodeList.length [] w1 p
    (List.not_mem_nil w1) h1
  exact ⟨isPath_iff.2 ⟨hh, h2, hc⟩, hnd⟩

theorem simple_path_mem_cands (G : DiGraph) (w1 w2 : String)
    (hep : G.EndpointsInNodes) (h1 : w1 ∈ G.nodeList) (q : List String)
    (hq : isPath G w1 w2 q = true) (hnd : q.Nodup) :
    q ∈ (simplePathsAux G G.nodeList.length [] w1).filter
        (fun p => p.getLast? == some w2) := by
  obtain ⟨hh, hl, hc⟩ := isPath_iff.1 hq
  have hsub : ∀ x ∈ q, x ∈ G.nodeList :=
    path_mem_nodes G hep q w1 h1 hh hc
  have hlen : q.length ≤ G.nodeList.length :=
    (List.subperm_of_subset hnd hsub).length_le
  apply (mem_cands G w1 w2 q).2
  refine ⟨?_, hl⟩
  exact simplePathsAux_complete G q G.nodeList.length [] w1 hh hc hnd
    (fun x _ hx => List.not_mem_nil x hx) hlen

theorem calc_shortest_path_some (G : DiGraph) (w1 w2 : String)
    (hep : G.EndpointsInNodes) (h1 : w1 ∈ G.nodeList)
    (q : List String) (hq : isPath G w1 w2 q = true) :
    ∃ p, calc_shortest_path G w1 w2 = some p ∧ isPath G w1 w2 p = true
      ∧ p.Nodup
      ∧ ∀ r, isPath G w1 w2 r = true → pathCost G p ≤ pathCost G r := by
  obtain ⟨q', hq', hnd', _⟩ := exists_simple_path G w1 w2 q hq
  have hqc := simple_path_mem_cands G w1 w2 hep h1 q' hq' hnd'
  cases hm : ((simplePathsAux G G.nodeList.length [] w1).filter
      (fun p => p.getLast? == some w2)).argmin (pathCost G) with
  | none =>
    rw [List.argmin_eq_none] at hm
    rw [hm] at hqc
    cases hqc
  | some p =>
    obtain ⟨hpath, hpnd⟩ := cand_isPath G w1 w2 p (List.argmin_mem hm)
    refine ⟨p, hm, hpath, hpnd, ?_⟩
    intro r hr
    obtain ⟨r', hr', hrnd', hrc'⟩ := exists_simple_path G w1 w2 r hr
    have hrc := simple_path_mem_cands G w1 w2 hep h1 r' hr' hrnd'
    exact Nat.le_trans (List.le_of_mem_argmin hrc hm) hrc'

theorem calc_shortest_path_none (G : DiGraph) (w1 w2 : String)
    (hnp : ∀ r, ¬ isPath G w1 w2 r = true) :
    calc_shortest_path G w1 w2 = none := by
  unfold calc_shortest_path
  cases hm : ((simplePathsAux G G.nodeList.length [] w1).filter
      (fun p => p.getLast? == some w2)).argmin (pathCost G) with
  | none => rfl
  | some p =>
    obtain ⟨hpath, _⟩ := cand_isPath G w1 w2 p (List.argmin_mem hm)
    exact absurd hpath (hnp p)

/-- Claim C2: when both words are present and some directed path connects
them, `func_shortest_path` reports a valid directed path from `w1` to `w2`
whose cost is minimal over all directed paths from `w1` to `w2`, and the
reported weight is exactly that path's cost (the sum over its edge set). -/
theorem C2_shortest_path_minimal (G : DiGraph) (w1 w2 : String)
    (hep : G.EndpointsInNodes) (h1 : w1 ∈ G.nodeList) (h2 : w2 ∈ G.nodeList)
    (q : List String) (hq : isPath G w1 w2 q = true) :
    ∃ p, func_shortest_path G w1 w2 = SPResult.found p (pathCost G p)
      ∧ isPath G w1 w2 p = true
      ∧ ∀ r, isPath G w1 w2 r = true → pathCost G p ≤ pathCost G r := by
  obtain ⟨p, hcalc, hpath, hnd, hmin⟩ :=
    calc_shortest_path_some G w1 w2 hep h1 q hq
  refine ⟨p, ?_, hpath, hmin⟩
  unfold func_shortest_path
  have hcond : ¬ (¬ w1 ∈ G.nodeList ∨ ¬ w2 ∈ G.nodeList) := by
    push_neg
    exact ⟨h1, h2⟩
  rw [if_neg hcond, hcalc]
  show SPResult.found p ((List.map (fun pr => G.weight pr.1 pr.2)
      (pathPairs p).dedup).sum) = SPResult.found p (pathCost G p)
  rw [List.Nodup.dedup (pathPairs_nodup hnd)]
  rfl

/-- Witness for C2 on the concrete graph `gEx`, query `"a" → "c"`, with the
concrete connecting path `["a", "b", "c"]`. -/
theorem C2_shortest_path_minimal_wit :
    ∃ p, func_shortest_path gEx "a" "c" = SPResult.found p (pathCost gEx p)
      ∧ isPath gEx "a" "c" p = true
      ∧ ∀ r, isPath gEx "a" "c" r = true
          → pathCost gEx p ≤ pathCost gEx r :=
  C2_shortest_path_minimal gEx "a" "c" (by decide) (by decide) (by decide)
    ["a", "b", "c"] (by decide)

theorem no_path_of_no_succ (G : DiGraph) (w1 w2 : String)
    (hsucc : G.successors w1 = []) (hne : ¬ w1 = w2) (r : List String) :
    ¬ isPath G w1 w2 r = true := by
  intro hr
  obtain ⟨hh, hl, hc⟩ := isPath_iff.1 hr
  cases r with
  | nil => cases hh
  | cons a rest =>
    have ha : a = w1 := by simpa using hh
    subst ha
    cases rest with
    | nil =>
      have : a = w2 := by simpa using hl
      exact hne this
    | cons b rest2 =>
      rw [chainOk_cons_cons, Bool.and_eq_true] at hc
      have hb : b ∈ G.successors a := DiGraph.mem_successors.2 hc.1
      rw [hsucc] at hb
      cases hb

/-- Claim C7: both failure modes of the shortest-path query are signalled as
result values, never as a crash: a missing word yields the unknown-node
result, two present but unconnected words yield the distinct no-path
result. -/
theorem C7_shortest_path_failures (G : DiGraph) (w1 w2 : String) :
    ((¬ w1 ∈ G.nodeList ∨ ¬ w2 ∈ G.nodeList) →
        func_shortest_path G w1 w2 = SPResult.unknownNode)
    ∧ (w1 ∈ G.nodeList → w2 ∈ G.nodeList →
        (∀ r, ¬ isPath G w1 w2 r = true) →
        func_shortest_path G w1 w2 = SPResult.noPath)
    ∧ SPResult.unknownNode ≠ SPResult.noPath := by
  refine ⟨?_, ?_, by decide⟩
  · intro h
    unfold func_shortest_path
    rw [if_pos h]
  · intro h1 h2 hnp
    unfold func_shortest_path
    have hcond : ¬ (¬ w1 ∈ G.nodeList ∨ ¬ w2 ∈ G.nodeList) := by
      push_neg
      exact ⟨h1, h2⟩
    rw [if_neg hcond, calc_shortest_path_none G w1 w2 hnp]

/-- Witness for C7: on `gEx`, the absent word `"zz"` gives the unknown-node
result and the dead-end query `"c" → "a"` gives the no-path result. -/
theorem C7_shortest_path_failures_wit :
    func_shortest_path gEx "zz" "a" = SPResult.unknownNode ∧
    func_shortest_path gEx "c" "a" = SPResult.noPath :=
  ⟨(C7_shortest_path_failures gEx "zz" "a").1 (Or.inl (by decide)),
   (C7_shortest_path_failures gEx "c" "a").2.1 (by decide) (by decide)
     (fun r => no_path_of_no_succ gEx "c" "a" (by decide) (by decide) r)⟩

theorem singleton_of_head_last_nodup (p : List String) (w : String)
    (hh : p.head? = some w) (hl : p.getLast? = some w) (hnd : p.Nodup) :
    p = [w] := by
  cases p with
  | nil => cases hh
  | cons a rest =>
    have ha : a = w := by simpa using hh
    subst ha
    cases rest with
    | nil => rfl
    | cons b rest2 =>
      rw [List.getLast?_cons_cons] at hl
      have hmem : a ∈ b :: rest2 := List.mem_of_getLast?_eq_some hl
      exact absurd hmem (List.nodup_cons.1 hnd).1

/-- Claim C8: for any node present in the graph, the shortest-path query from
the node to itself reports the single-node path with cost 0, whether or not a
self-loop edge exists. -/
theorem C8_self_path (G : DiGraph) (w : String) (hw : w ∈ G.nodeList) :
    func_shortest_path G w w = SPResult.found [w] 0 := by
  have hlen1 : 1 ≤ G.nodeList.length := by
    cases hnl : G.nodeList with
    | nil => rw [hnl] at hw; cases hw
    | cons a rest => simp
  have hwc : [w] ∈ (simplePathsAux G G.nodeList.length [] w).filter
      (fun p => p.getLast? == some w) := by
    apply (mem_cands G w w [w]).2
    refine ⟨?_, rfl⟩
    exact simplePathsAux_complete G [w] G.nodeList.length [] w rfl rfl
      (List.nodup_singleton w) (fun x _ hx => List.not_mem_nil x hx) hlen1
  have hall : ∀ p ∈ (simplePathsAux G G.nodeList.length [] w).filter
      (fun p => p.getLast? == some w), p = [w] := by
    intro p hp
    obtain ⟨hpath, hnd⟩ := cand_isPath G w w p hp
    obtain ⟨hh, hl, _⟩ := isPath_iff.1 hpath
    exact singleton_of_head_last_nodup p w hh hl hnd
  have hcalc : calc_shortest_path G w w = some [w] := by
    unfold calc_shortest_path
    cases hm : ((simplePathsAux G G.nodeList.length [] w).filter
        (fun p => p.getLast? == some w)).argmin (pathCost G) with
    | none =>
      rw [List.argmin_eq_none] at hm
      rw [hm] at hwc
      cases hwc
    | some p =>
      exact congrArg some (hall p (List.argmin_mem hm))
  unfold func_shortest_path
  have hcond : ¬ (¬ w ∈ G.nodeList ∨ ¬ w ∈ G.nodeList) := by
    push_neg
    exact ⟨hw, hw⟩
  rw [if_neg hcond, hcalc]
  rfl

/-- Witness for C8 at the concrete node `"b"` of `gEx`. -/
theorem C8_self_path_wit :
    func_shortest_path gEx "b" "b" = SPResult.found ["b"] 0 :=
  C8_self_path gEx "b" (by decide)
